import Mathlib

/-!
Shallow embedding of `regex.c`, a harness that reads regex patterns and
test triples from text files, delegates compilation and matching to the
POSIX regex library (`regcomp`/`regexec`/`regerror`, treated as an
oracle), and prints one pass/fail diagnostic per triple on stderr.

C strings are modelled as `List Char` (no interior NUL bytes), machine
`int` as `Int`, and the POSIX library as a record of oracle functions.
Calls made by the harness and lines it prints are recorded as an event
trace, so properties about which arguments the harness passes to the
library and what it prints can be stated and proved.
-/

namespace CRegex

/-- C strings (the bytes before the terminating NUL). -/
abbrev CStr := List Char

/-! ### `read_lines`: fgets chunking

`read_lines` repeatedly calls `fgets(buf, LINE_BUF_SIZE, f)`.  One
`fgets` call consumes input up to and including the first newline, but
at most `LINE_BUF_SIZE - 1 = 1023` characters.  `takeChunk n s` models
one such call with room for `n` characters: it returns the chunk placed
in the buffer and the remaining stream. -/

def LINE_BUF_SIZE : Nat := 1024

def takeChunk : Nat → CStr → CStr × CStr
  | 0, rest => ([], rest)
  | _ + 1, [] => ([], [])
  | n + 1, c :: rest =>
    if c = '\n' then ([c], rest)
    else
      let p := takeChunk n rest
      (c :: p.1, p.2)

/-- The character loop of `fgets` repeated until EOF: `room` is the
space left for characters in the 1024-byte buffer (1023 usable),
`buf` holds the characters already placed in the buffer (reversed).  A
buffer is emitted when a newline is stored or the buffer fills; at EOF a
nonempty partial buffer is the final chunk. -/
def fgetsAux : CStr → Nat → CStr → List CStr
  | [], _, buf => if buf.isEmpty then [] else [buf.reverse]
  | c :: rest, room, buf =>
    if c == '\n' || room == 1 then
      (c :: buf).reverse :: fgetsAux rest (LINE_BUF_SIZE - 1) []
    else
      fgetsAux rest (room - 1) (c :: buf)

/-- The sequence of buffers successive `fgets(buf, LINE_BUF_SIZE, f)`
calls produce until EOF. -/
def fgetsChunks (s : CStr) : List CStr := fgetsAux s (LINE_BUF_SIZE - 1) []

theorem fgetsAux_takeChunk : ∀ (s : CStr) (room : Nat), 0 < room → ∀ buf : CStr,
    fgetsAux s room buf =
      if s.isEmpty then (if buf.isEmpty then [] else [buf.reverse])
      else (buf.reverse ++ (takeChunk room s).1) :: fgetsChunks (takeChunk room s).2 := by
  intro s
  induction s with
  | nil => intro room _ buf; rfl
  | cons c rest ih =>
    intro room hroom buf
    cases room with
    | zero => exact absurd hroom (by simp)
    | succ m =>
      by_cases hc : c = '\n'
      · subst hc
        simp [fgetsAux, takeChunk, fgetsChunks]
      · cases m with
        | zero =>
          simp only [fgetsAux, takeChunk, if_neg hc]
          have : (('\n' == '\n' || (1 : Nat) == 1)) = true := by decide
          simp [hc, takeChunk, fgetsChunks]
        | succ m' =>
          have hcond : ((c == '\n' || (m' + 2 : Nat) == 1)) = false := by
            simp [hc]
          simp only [fgetsAux, hcond, Bool.false_eq_true, if_false,
            Nat.add_sub_cancel]
          rw [ih (m' + 1) (Nat.succ_pos m') (c :: buf)]
          cases rest with
          | nil => simp [takeChunk, if_neg hc, fgetsChunks, fgetsAux]
          | cons d rest' =>
            simp only [List.isEmpty_cons, if_false]
            rw [show takeChunk (m' + 1 + 1) (c :: d :: rest') =
              (c :: (takeChunk (m' + 1) (d :: rest')).1,
                (takeChunk (m' + 1) (d :: rest')).2) from by
                simp [takeChunk, if_neg hc]]
            simp

/-- `fgetsChunks` unfolds one `fgets` call at a time. -/
theorem fgetsChunks_eq (s : CStr) :
    fgetsChunks s =
      if s.isEmpty then []
      else (takeChunk (LINE_BUF_SIZE - 1) s).1 ::
        fgetsChunks (takeChunk (LINE_BUF_SIZE - 1) s).2 := by
  rw [fgetsChunks, fgetsAux_takeChunk s (LINE_BUF_SIZE - 1) (by decide) []]
  cases s <;> simp

theorem takeChunk_of_newline : ∀ (line : CStr) (n : Nat) (rest : CStr),
    '\n' ∉ line → line.length < n →
    takeChunk n (line ++ '\n' :: rest) = (line ++ ['\n'], rest) := by
  intro line
  induction line with
  | nil =>
    intro n rest _ hn
    cases n with
    | zero => exact absurd hn (by simp)
    | succ n => simp [takeChunk]
  | cons c cs ih =>
    intro n rest hmem hn
    cases n with
    | zero => exact absurd hn (by simp)
    | succ n =>
      have hc : c ≠ '\n' := fun h => hmem (by simp [h])
      have hlen : cs.length < n := by simpa using hn
      simp only [List.cons_append, takeChunk, if_neg hc, List.append_eq,
        ih n rest (fun h => hmem (List.mem_cons_of_mem _ h)) hlen]

theorem takeChunk_of_no_newline : ∀ (s : CStr) (n : Nat),
    '\n' ∉ s → s.length ≤ n → takeChunk n s = (s, []) := by
  intro s
  induction s with
  | nil =>
    intro n _ _
    cases n <;> simp [takeChunk]
  | cons c cs ih =>
    intro n hmem hn
    cases n with
    | zero => exact absurd hn (by simp)
    | succ n =>
      have hc : c ≠ '\n' := fun h => hmem (by simp [h])
      have hlen : cs.length ≤ n := by simpa using hn
      simp only [takeChunk, if_neg hc,
        ih n (fun h => hmem (List.mem_cons_of_mem _ h)) hlen]

theorem takeChunk_of_long : ∀ (n : Nat) (s : CStr),
    '\n' ∉ s.take n → n ≤ s.length →
    takeChunk n s = (s.take n, s.drop n) := by
  intro n
  induction n with
  | zero => intro s _ _; simp [takeChunk]
  | succ n ih =>
    intro s hmem hn
    cases s with
    | nil => exact absurd hn (by simp)
    | cons c cs =>
      have hc : c ≠ '\n' := fun h => hmem (by simp [h])
      have hlen : n ≤ cs.length := by simpa using hn
      simp only [takeChunk, if_neg hc, List.take_succ_cons, List.drop_succ_cons,
        ih cs (fun h => hmem (by simp [List.take_succ_cons, h])) hlen]

theorem fgetsChunks_nil : fgetsChunks [] = [] := rfl

theorem fgetsChunks_newline_line (line rest : CStr)
    (hmem : '\n' ∉ line) (hlen : line.length < LINE_BUF_SIZE - 1) :
    fgetsChunks (line ++ '\n' :: rest) = (line ++ ['\n']) :: fgetsChunks rest := by
  rw [fgetsChunks_eq]
  simp [takeChunk_of_newline line (LINE_BUF_SIZE - 1) rest hmem hlen]

theorem fgetsChunks_last_line (s : CStr) (hne : s ≠ [])
    (hmem : '\n' ∉ s) (hlen : s.length ≤ LINE_BUF_SIZE - 1) :
    fgetsChunks s = [s] := by
  rw [fgetsChunks_eq]
  simp [hne, takeChunk_of_no_newline s (LINE_BUF_SIZE - 1) hmem hlen, fgetsChunks_nil]

theorem fgetsChunks_long_line (s : CStr)
    (hmem : '\n' ∉ s.take (LINE_BUF_SIZE - 1)) (hlen : LINE_BUF_SIZE - 1 ≤ s.length) :
    fgetsChunks s = s.take (LINE_BUF_SIZE - 1) :: fgetsChunks (s.drop (LINE_BUF_SIZE - 1)) := by
  have hne : s ≠ [] := by
    intro h
    rw [h] at hlen
    simp [LINE_BUF_SIZE] at hlen
  rw [fgetsChunks_eq]
  simp [hne, takeChunk_of_long (LINE_BUF_SIZE - 1) s hmem hlen]

/-- What the loop body of `read_lines` stores for one buffer:
`strncpy(lines[i], buf, len-1); lines[i][len-1] = 0` keeps all but the
final character of the buffer. -/
def storeLine (chunk : CStr) : CStr := chunk.dropLast

/-- `read_lines` on the success path (file opened, every allocation
succeeded): the stored lines, in order. -/
def read_lines_pure (content : CStr) : List CStr :=
  (fgetsChunks content).map storeLine

/-! ### `read_lines` with explicit allocation tracking

To settle the error-path claim, `read_lines` is re-run with an
allocation oracle `allocOk : Nat → Bool` (does the k-th
`malloc`/`realloc` call succeed?) and an explicit set of live heap
blocks: `Alloc.arr` is the `lines` pointer array (ownership transfers
through `realloc`), `Alloc.line i` is the buffer for line `i`.  The
result mirrors the C interface: the returned pointer (`none` = NULL),
the value stored in `*size`, and the blocks still allocated when the
function returns. -/

inductive Alloc where
  | arr : Alloc
  | line : Nat → Alloc
deriving DecidableEq, Repr

/-- `free_lines(lines, n)`: frees `lines[0..n-1]` and the array itself. -/
def free_lines (live : List Alloc) (n : Nat) : List Alloc :=
  live.filter fun a =>
    match a with
    | .arr => false
    | .line j => decide (n ≤ j)

/-- The `while (fgets(...))` loop of `read_lines`.  Arguments: remaining
chunks the successive `fgets` calls will yield, index `k` of the next
allocation, loop counter `i`, current capacity `cap`, lines stored so
far (reversed), live heap blocks. -/
def rlLoop (allocOk : Nat → Bool) :
    List CStr → Nat → Nat → Nat → List CStr → List Alloc →
    Option (List CStr) × Nat × List Alloc
  | [], _, i, _, acc, live => (some acc.reverse, i, live)
  | chunk :: rest, k, i, cap, acc, live =>
    if i == cap && !allocOk k then
      -- realloc failed: the old array and lines 0..i-1 are freed, NULL returned
      (none, 0, free_lines live i)
    else if !allocOk (if i == cap then k + 1 else k) then
      -- malloc for lines[i] failed
      (none, 0, free_lines live i)
    else
      rlLoop allocOk rest ((if i == cap then k + 1 else k) + 1) (i + 1)
        (if i == cap then cap * 2 else cap) (storeLine chunk :: acc)
        (Alloc.line i :: live)

/-- `read_lines` with fallible `fopen` (argument `fopenOk`) and fallible
allocation.  Returns (return value, `*size`, live heap blocks at
return). -/
def read_lines_alloc (allocOk : Nat → Bool) (fopenOk : Bool) (content : CStr) :
    Option (List CStr) × Nat × List Alloc :=
  if !fopenOk then (none, 0, [])
  else if !allocOk 0 then (none, 0, [])
  else rlLoop allocOk (fgetsChunks content) 1 0 10 [] [Alloc.arr]

theorem free_lines_of_bounded (live : List Alloc) (n : Nat)
    (h : ∀ a ∈ live, a = Alloc.arr ∨ ∃ j, j < n ∧ a = Alloc.line j) :
    free_lines live n = [] := by
  rw [free_lines, List.filter_eq_nil_iff]
  intro a ha
  rcases h a ha with h1 | ⟨j, hj, h2⟩
  · subst h1; simp
  · subst h2
    simpa using Nat.not_le.mpr hj

theorem rlLoop_spec (allocOk : Nat → Bool) :
    ∀ (chunks : List CStr) (k i cap : Nat) (acc : List CStr) (live : List Alloc),
    (∀ a ∈ live, a = Alloc.arr ∨ ∃ j, j < i ∧ a = Alloc.line j) →
    (∃ ls lv, rlLoop allocOk chunks k i cap acc live = (some ls, i + chunks.length, lv) ∧
      ls = acc.reverse ++ chunks.map storeLine) ∨
    rlLoop allocOk chunks k i cap acc live = (none, 0, []) := by
  intro chunks
  induction chunks with
  | nil =>
    intro k i cap acc live _
    exact Or.inl ⟨acc.reverse, live, by simp [rlLoop], by simp⟩
  | cons chunk rest ih =>
    intro k i cap acc live hlive
    rw [rlLoop]
    by_cases h1 : (i == cap && !allocOk k) = true
    · rw [if_pos h1, free_lines_of_bounded live i hlive]
      exact Or.inr rfl
    · rw [if_neg h1]
      by_cases h2 : (!allocOk (if i == cap then k + 1 else k)) = true
      · rw [if_pos h2, free_lines_of_bounded live i hlive]
        exact Or.inr rfl
      · rw [if_neg h2]
        have hlive' : ∀ a ∈ Alloc.line i :: live,
            a = Alloc.arr ∨ ∃ j, j < i + 1 ∧ a = Alloc.line j := by
          intro a ha
          rcases List.mem_cons.mp ha with h1 | h2
          · exact Or.inr ⟨i, Nat.lt_succ_self i, h1⟩
          · rcases hlive a h2 with h3 | ⟨j, hj, h4⟩
            · exact Or.inl h3
            · exact Or.inr ⟨j, Nat.lt_succ_of_lt hj, h4⟩
        rcases ih ((if i == cap then k + 1 else k) + 1) (i + 1)
            (if i == cap then cap * 2 else cap) (storeLine chunk :: acc)
            (Alloc.line i :: live) hlive' with
          ⟨ls, lv, heq, hls⟩ | heq
        · refine Or.inl ⟨ls, lv, ?_, ?_⟩
          · rw [heq]
            simp only [List.length_cons]
            congr 2
            omega
          · simp [hls]
        · exact Or.inr heq

/-! ### `parse_test_cases`

`struct TestCase { int regex_idx; char *str; int isMatch; }`.  Each line
is tokenized with `strtok(line, " ")`, which yields the maximal runs of
non-space characters in order.  The first and third tokens go through
`atoi`, the second through `strdup`.  If the line has fewer than three
tokens, `strtok` returns NULL and the C code dereferences it
(`atoi(NULL)` / `strdup(NULL)`): undefined behaviour, modelled as
`none`. -/

structure TestCase where
  regex_idx : Int
  str : CStr
  isMatch : Int
deriving DecidableEq, Repr

/-- `isspace` for the default C locale, as consulted by `atoi`. -/
def isspace_c (c : Char) : Bool :=
  c == ' ' || c == '\t' || c == '\n' || c == '\x0b' || c == '\x0c' || c == '\r'

def isdigit_c (c : Char) : Bool :=
  '0' ≤ c && c ≤ '9'

/-- Value of the maximal digit prefix, accumulator style. -/
def digitsValue : CStr → Nat → Nat
  | [], acc => acc
  | c :: rest, acc =>
    if isdigit_c c then digitsValue rest (acc * 10 + (c.toNat - '0'.toNat))
    else acc

/-- C `atoi`: skip leading whitespace, optional sign, maximal digit
prefix; 0 when no digits follow.  (Overflow is undefined behaviour in C
and is not modelled; the value is exact.) -/
def atoi (s : CStr) : Int :=
  match s.dropWhile isspace_c with
  | '-' :: rest => -(digitsValue rest 0 : Int)
  | '+' :: rest => (digitsValue rest 0 : Int)
  | s1 => (digitsValue s1 0 : Int)

/-- Character loop underlying repeated `strtok(·, " ")` calls: `cur` is
the (reversed) run of non-space characters currently being read.  A run
ends at a space or at the end of the string; empty runs produce no
token. -/
def strtokAux : CStr → CStr → List CStr
  | [], cur => if cur.isEmpty then [] else [cur.reverse]
  | c :: rest, cur =>
    if c == ' ' then
      if cur.isEmpty then strtokAux rest [] else cur.reverse :: strtokAux rest []
    else strtokAux rest (c :: cur)

/-- All tokens successive `strtok(·, " ")` calls yield: the maximal
nonempty runs of non-space characters, in order. -/
def strtokAll (s : CStr) : List CStr := strtokAux s []

/-- One iteration of the `parse_test_cases` loop on `lines[i]`. -/
def parseLine (line : CStr) : Option TestCase :=
  match strtokAll line with
  | t1 :: t2 :: t3 :: _ => some ⟨atoi t1, t2, atoi t3⟩
  | _ => none

def parse_test_cases : List CStr → Option (List TestCase)
  | [] => some []
  | l :: rest =>
    match parseLine l, parse_test_cases rest with
    | some t, some ts => some (t :: ts)
    | _, _ => none

/-! ### `main` and the POSIX regex library oracle

`main` calls `regcomp(&regexs[i], patterns[i], REG_EXTENDED | REG_NOSUB)`
for every pattern (aborting on the first failure), then
`regexec(&regexs[t->regex_idx], t->str, 0, NULL, 0)` for every test
case, and prints one `[Success]`/`[Failed]` line per test case.  The
library is deterministic in its arguments (a compiled `regex_t` is a
function of the pattern string and flags), so it is modelled as a record
of pure oracle functions, and a compiled pattern is identified by the
pattern string it was compiled from. -/

/- glibc flag and error-code values. -/
def REG_EXTENDED : Nat := 1
def REG_NOSUB : Nat := 8
def REG_NOMATCH : Int := 1
def REG_ESPACE : Int := 12

/-- The `cflags` argument `main` passes to every `regcomp` call. -/
def cflags_main : Nat := REG_EXTENDED ||| REG_NOSUB

structure Lib where
  /-- `regcomp` return code for a pattern string and cflags. -/
  regcomp : CStr → Nat → Int
  /-- `regexec` return code for a compiled pattern and a subject
  (0 means matched); `main` fixes `nmatch = 0`, `pmatch = NULL`,
  `eflags = 0`, so those are not oracle arguments. -/
  regexec : CStr → CStr → Int
  /-- `regerror` message text for a return code and a compiled pattern. -/
  regerror : Int → CStr → CStr

/-- Observable steps of `main`: library calls with the arguments the C
code passes, and the stderr lines it prints. -/
inductive Event where
  /-- `fopen` + read of a file by `read_lines` (`ok` = opened). -/
  | fileRead : String → Bool → Event
  /-- `regcomp(&regexs[i], pat, cflags)` returning `ret`. -/
  | compileCall : Nat → CStr → Nat → Int → Event
  /-- `regexec(&regexs[i], str, nmatch, pmatch, eflags)` returning
  `ret`; `pmatchNull` records whether `pmatch` was NULL. -/
  | execCall : (i : Nat) → (pat : CStr) → (str : CStr) → (nmatch : Nat) →
      (pmatchNull : Bool) → (eflags : Nat) → (ret : Int) → Event
  /-- `fprintf(stderr, "Could not compile regex: %s\n", pat)`. -/
  | reportCompileFail : CStr → Event
  /-- `fprintf(stderr, "[%s] regex %d %s: %s\n", state, idx, str, msg)`
  with `success` = (`state` was `"Success"`). -/
  | reportTest : (success : Bool) → (idx : Int) → (str : CStr) → (msg : CStr) → Event
deriving DecidableEq, Repr

def Event.isReport : Event → Bool
  | .reportTest _ _ _ _ => true
  | _ => false

/-- The `regcomp` loop of `main`, compiling `patterns` starting at array
index `i`.  Returns the events and `some i₀` when pattern `i₀` failed to
compile (the loop `goto error`s there), `none` when all compiled. -/
def compileLoop (lib : Lib) : List CStr → Nat → List Event × Option Nat
  | [], _ => ([], none)
  | p :: rest, i =>
    let r := lib.regcomp p cflags_main
    if r == 0 then
      let next := compileLoop lib rest (i + 1)
      (Event.compileCall i p cflags_main r :: next.1, next.2)
    else
      ([Event.compileCall i p cflags_main r, Event.reportCompileFail p], some i)

def compilePatterns (lib : Lib) (patterns : List CStr) : List Event × Option Nat :=
  compileLoop lib patterns 0

/-- One iteration of the execution loop of `main` on test case `t`:
`regexec(&regexs[t->regex_idx], t->str, 0, NULL, 0)`, then the
`[Success]`/`[Failed]` line.  `Success` is printed iff
`(t->isMatch && reti == 0) || (!t->isMatch && reti)`.  An out-of-range
`regex_idx` indexes outside the `regexs` array: undefined behaviour,
modelled as `none`. -/
def execStep (lib : Lib) (patterns : List CStr) (t : TestCase) : Option (List Event) :=
  if h : 0 ≤ t.regex_idx ∧ t.regex_idx.toNat < patterns.length then
    let pat := patterns.get ⟨t.regex_idx.toNat, h.2⟩
    let reti := lib.regexec pat t.str
    let success : Bool := (t.isMatch != 0 && reti == 0) || (t.isMatch == 0 && !(reti == 0))
    some [Event.execCall t.regex_idx.toNat pat t.str 0 true 0 reti,
          Event.reportTest success t.regex_idx t.str (lib.regerror reti pat)]
  else none

/-- The execution loop of `main` over all test cases, as the event trace
it produces. -/
def execLoop (lib : Lib) (patterns : List CStr) : List TestCase → Option (List Event)
  | [] => some []
  | t :: rest =>
    match execStep lib patterns t, execLoop lib patterns rest with
    | some evs, some evs' => some (evs ++ evs')
    | _, _ => none

/-- The memory the execution loop can reach: the `regexs` array, the
`tests` array, and the stream already printed to stderr. -/
structure ExecState where
  regexs : List CStr
  tests : List TestCase
  output : List Event
deriving DecidableEq, Repr

/-- One iteration of `for (i=0; i < t_size; i++)`, reading `tests[i]`
and the pattern array from the current state. -/
def execBodySt (lib : Lib) (s : ExecState) (i : Nat) : Option ExecState :=
  match s.tests[i]? with
  | none => none
  | some t =>
    match execStep lib s.regexs t with
    | none => none
    | some evs => some { s with output := s.output ++ evs }

/-- Run `n` iterations of the execution loop starting at index `i`. -/
def execLoopStFrom (lib : Lib) : Nat → Nat → ExecState → Option ExecState
  | 0, _, s => some s
  | n + 1, i, s =>
    match execBodySt lib s i with
    | none => none
    | some s' => execLoopStFrom lib n (i + 1) s'

/-- The whole execution loop of `main` as a state transformer. -/
def execLoopSt (lib : Lib) (s : ExecState) : Option ExecState :=
  execLoopStFrom lib s.tests.length 0 s

/-- The two files `main` reads; `none` models a failing `fopen`. -/
structure Files where
  pattern_txt : Option CStr
  test_txt : Option CStr

/-- `main`, assuming every allocation succeeds (allocation failure is
covered by the `read_lines` model above): the event trace and the exit
code, or `none` on undefined behaviour (a test line with fewer than
three tokens, or an out-of-range `regex_idx`). -/
def main_run (lib : Lib) (fs : Files) : Option (List Event × Int) :=
  match fs.pattern_txt with
  | none => some ([Event.fileRead "pattern.txt" false], 1)
  | some pc =>
    let patterns := read_lines_pure pc
    let c := compilePatterns lib patterns
    match c.2 with
    | some _ => some (Event.fileRead "pattern.txt" true :: c.1, 1)
    | none =>
      match fs.test_txt with
      | none =>
        some (Event.fileRead "pattern.txt" true :: c.1 ++ [Event.fileRead "test.txt" false], 1)
      | some tc =>
        match parse_test_cases (read_lines_pure tc) with
        | none => none
        | some tests =>
          match execLoop lib patterns tests with
          | none => none
          | some evs =>
            some (Event.fileRead "pattern.txt" true :: c.1 ++
              Event.fileRead "test.txt" true :: evs, 0)

/-! ### Sample oracles and inputs used by witnesses -/

/-- A library in which every pattern compiles and every subject
matches. -/
def lib0 : Lib :=
  { regcomp := fun _ _ => 0
    regexec := fun _ _ => 0
    regerror := fun _ _ => [] }

/-- A library that rejects the pattern `"("` at compile time and accepts
every other pattern. -/
def libFailParen : Lib :=
  { regcomp := fun p _ => if p == ['('] then 2 else 0
    regexec := fun _ _ => 0
    regerror := fun _ _ => [] }

/-- A library whose `regexec` always fails with `REG_ESPACE` (out of
memory): a genuine match error, not a no-match. -/
def libMatchError : Lib :=
  { regcomp := fun _ _ => 0
    regexec := fun _ _ => REG_ESPACE
    regerror := fun _ _ => [] }

/-- A library whose `regexec` always returns `REG_NOMATCH`. -/
def libNoMatch : Lib :=
  { regcomp := fun _ _ => 0
    regexec := fun _ _ => REG_NOMATCH
    regerror := fun _ _ => [] }

/-! ### C9: what `read_lines` stores for each line -/

/-- C9: `read_lines` stores every `fgets` buffer with its final
character removed (`strncpy(lines[i], buf, len-1)`).  A line terminated
by a newline within the 1023-character buffer is stored as its content
without the newline; a final line lacking a trailing newline is stored
with its last content character dropped; a line of length at least the
buffer size is split, and the 1023-character piece also loses its last
content character. -/
theorem read_lines_drops_final_char :
    (∀ line rest : CStr, '\n' ∉ line → line.length < LINE_BUF_SIZE - 1 →
      read_lines_pure (line ++ '\n' :: rest) = line :: read_lines_pure rest) ∧
    (∀ s : CStr, s ≠ [] → '\n' ∉ s → s.length ≤ LINE_BUF_SIZE - 1 →
      read_lines_pure s = [s.dropLast] ∧ s.dropLast.length + 1 = s.length) ∧
    (∀ s : CStr, '\n' ∉ s.take (LINE_BUF_SIZE - 1) → LINE_BUF_SIZE - 1 ≤ s.length →
      read_lines_pure s =
        (s.take (LINE_BUF_SIZE - 1)).dropLast :: read_lines_pure (s.drop (LINE_BUF_SIZE - 1)) ∧
      (s.take (LINE_BUF_SIZE - 1)).dropLast.length + 1 = LINE_BUF_SIZE - 1) := by
  refine ⟨?_, ?_, ?_⟩
  · intro line rest hmem hlen
    rw [read_lines_pure, fgetsChunks_newline_line line rest hmem hlen, List.map_cons]
    rw [read_lines_pure, storeLine, List.dropLast_concat]
  · intro s hne hmem hlen
    constructor
    · rw [read_lines_pure, fgetsChunks_last_line s hne hmem hlen, List.map_cons,
        List.map_nil, storeLine]
    · have : 0 < s.length := List.length_pos.mpr hne
      rw [List.length_dropLast]
      omega
  · intro s hmem hlen
    constructor
    · rw [read_lines_pure, fgetsChunks_long_line s hmem hlen, List.map_cons, storeLine,
        read_lines_pure]
    · have h1 : (s.take (LINE_BUF_SIZE - 1)).length = LINE_BUF_SIZE - 1 :=
        List.length_take_of_le hlen
      have h2 : s.take (LINE_BUF_SIZE - 1) ≠ [] := by
        intro h
        rw [h] at h1
        simp [LINE_BUF_SIZE] at h1
      have h3 : 0 < (s.take (LINE_BUF_SIZE - 1)).length := List.length_pos.mpr h2
      rw [List.length_dropLast]
      omega

theorem read_lines_drops_final_char_witness :
    read_lines_pure (['a', 'b'] ++ '\n' :: ['x', 'y']) = ['a', 'b'] :: read_lines_pure ['x', 'y'] ∧
    (read_lines_pure ['x', 'y'] = [['x', 'y'].dropLast] ∧
      ['x', 'y'].dropLast.length + 1 = ['x', 'y'].length) :=
  ⟨read_lines_drops_final_char.1 ['a', 'b'] ['x', 'y'] (by decide) (by decide),
   read_lines_drops_final_char.2.1 ['x', 'y'] (by decide) (by decide) (by decide)⟩

/-! ### C10: `read_lines` is all-or-nothing -/

/-- C10: whatever the `fopen` outcome and the allocation outcomes,
`read_lines` either succeeds — returning the complete list of stored
lines with `*size` set to the exact number of lines read — or fails,
returning NULL with `*size = 0` and no heap block left allocated (every
line allocated before the failure is freed).  The caller never receives
a partially filled array. -/
theorem read_lines_all_or_nothing (allocOk : Nat → Bool) (fopenOk : Bool) (content : CStr) :
    (∃ lv, read_lines_alloc allocOk fopenOk content =
      (some (read_lines_pure content), (fgetsChunks content).length, lv)) ∨
    read_lines_alloc allocOk fopenOk content = (none, 0, []) := by
  rw [read_lines_alloc]
  by_cases hopen : (!fopenOk) = true
  · rw [if_pos hopen]
    exact Or.inr rfl
  · rw [if_neg hopen]
    by_cases halloc : (!allocOk 0) = true
    · rw [if_pos halloc]
      exact Or.inr rfl
    · rw [if_neg halloc]
      have hlive : ∀ a ∈ [Alloc.arr], a = Alloc.arr ∨ ∃ j, j < 0 ∧ a = Alloc.line j := by
        intro a ha
        simp only [List.mem_singleton] at ha
        exact Or.inl ha
      rcases rlLoop_spec allocOk (fgetsChunks content) 1 0 10 [] [Alloc.arr] hlive with
        ⟨ls, lv, heq, hls⟩ | heq
      · refine Or.inl ⟨lv, ?_⟩
        rw [heq, hls]
        simp [read_lines_pure]
      · exact Or.inr heq

/-! ### C6: `parse_test_cases` on well-formed lines -/

/-- C6: when every line has at least three space-separated tokens,
`parse_test_cases` succeeds and yields one test case per line, in
order, whose `regex_idx` is `atoi` of the first token, whose subject is
(a copy of) the second token, and whose `isMatch` flag is `atoi` of the
third token. -/
theorem parse_test_cases_three_tokens :
    ∀ lines : List CStr, (∀ l ∈ lines, 3 ≤ (strtokAll l).length) →
    parse_test_cases lines = some (lines.map fun l =>
      { regex_idx := atoi ((strtokAll l).getD 0 [])
        str := (strtokAll l).getD 1 []
        isMatch := atoi ((strtokAll l).getD 2 []) }) := by
  intro lines
  induction lines with
  | nil => intro _; rfl
  | cons l rest ih =>
    intro h
    have h3 := h l (List.mem_cons_self l rest)
    have hp : parseLine l = some
        { regex_idx := atoi ((strtokAll l).getD 0 [])
          str := (strtokAll l).getD 1 []
          isMatch := atoi ((strtokAll l).getD 2 []) } := by
      rcases hm : strtokAll l with _ | ⟨t1, _ | ⟨t2, _ | ⟨t3, ts⟩⟩⟩
      · rw [hm] at h3; simp at h3
      · rw [hm] at h3; simp at h3
      · rw [hm] at h3; simp at h3
      · rw [parseLine, hm]
        simp [List.getD]
    rw [List.map_cons, parse_test_cases, hp,
      ih (fun l' hl' => h l' (List.mem_cons_of_mem _ hl'))]

theorem parse_test_cases_three_tokens_witness :
    parse_test_cases [['0', ' ', 'a', 'b', ' ', '1'], ['2', ' ', 'x', ' ', '0']] =
      some ([['0', ' ', 'a', 'b', ' ', '1'], ['2', ' ', 'x', ' ', '0']].map fun l =>
        { regex_idx := atoi ((strtokAll l).getD 0 [])
          str := (strtokAll l).getD 1 []
          isMatch := atoi ((strtokAll l).getD 2 []) }) :=
  parse_test_cases_three_tokens [['0', ' ', 'a', 'b', ' ', '1'], ['2', ' ', 'x', ' ', '0']]
    (by decide)

/-! ### C1: one diagnostic per triple, Success iff observed = expected -/

/-- The `(t->isMatch && reti == 0) || (!t->isMatch && reti)` condition
holds iff the boolean match observation (`reti == 0`) agrees with the
expected flag (`isMatch` nonzero). -/
theorem success_cond_iff (im reti : Int) :
    ((im != 0 && reti == 0) || (im == 0 && !(reti == 0))) = true ↔
      ((reti = 0) ↔ im ≠ 0) := by
  by_cases h1 : im = 0 <;> by_cases h2 : reti = 0 <;> simp [h1, h2]

/-- C1: each evaluated triple emits exactly one diagnostic line,
labelled `Success` iff the observed boolean result (`regexec` returned
0) equals the expected flag; and the trace of a list of triples is the
concatenation of each triple's own trace, computed from that triple
alone — no outcome depends on the other triples. -/
theorem exec_reports_one_line_per_triple :
    (∀ (lib : Lib) (patterns : List CStr) (t : TestCase) (evs : List Event),
      execStep lib patterns t = some evs →
      (evs.filter Event.isReport).length = 1 ∧
      ∀ s idx st m, Event.reportTest s idx st m ∈ evs →
        ∃ pat, patterns[t.regex_idx.toNat]? = some pat ∧
          (s = true ↔ ((lib.regexec pat t.str = 0) ↔ t.isMatch ≠ 0))) ∧
    (∀ (lib : Lib) (patterns : List CStr) (ts1 ts2 : List TestCase) (e1 e2 : List Event),
      execLoop lib patterns ts1 = some e1 → execLoop lib patterns ts2 = some e2 →
      execLoop lib patterns (ts1 ++ ts2) = some (e1 ++ e2)) := by
  constructor
  · intro lib patterns t evs h
    rw [execStep] at h
    split at h
    case isFalse => exact absurd h (by simp)
    case isTrue hb =>
      rw [Option.some_inj] at h
      subst h
      refine ⟨rfl, ?_⟩
      intro s idx st m hmem
      refine ⟨patterns.get ⟨t.regex_idx.toNat, hb.2⟩, ?_, ?_⟩
      · rw [List.getElem?_eq_getElem hb.2]
        rfl
      · rcases List.mem_cons.mp hmem with h1 | h2
        · exact absurd h1 (by simp)
        · rcases List.mem_singleton.mp h2 with h3
          have hs : s = ((t.isMatch != 0 &&
              lib.regexec (patterns.get ⟨t.regex_idx.toNat, hb.2⟩) t.str == 0) ||
              (t.isMatch == 0 &&
                !(lib.regexec (patterns.get ⟨t.regex_idx.toNat, hb.2⟩) t.str == 0))) := by
            injection h3
          rw [hs]
          exact success_cond_iff t.isMatch _
  · intro lib patterns ts1
    induction ts1 with
    | nil =>
      intro ts2 e1 e2 h1 h2
      rw [execLoop] at h1
      rw [Option.some_inj] at h1
      subst h1
      simpa using h2
    | cons t rest ih =>
      intro ts2 e1 e2 h1 h2
      rw [execLoop] at h1
      rw [List.cons_append, execLoop]
      cases hs : execStep lib patterns t with
      | none => rw [hs] at h1; exact absurd h1 (by simp)
      | some evs =>
        rw [hs] at h1
        cases hr : execLoop lib patterns rest with
        | none => rw [hr] at h1; exact absurd h1 (by simp)
        | some evs' =>
          rw [hr] at h1
          rw [Option.some_inj] at h1
          subst h1
          rw [ih ts2 evs' e2 hr h2]
          simp

theorem exec_reports_one_line_per_triple_witness :
    (([Event.execCall 0 ['a'] ['x'] 0 true 0 0,
        Event.reportTest true 0 ['x'] []].filter Event.isReport).length = 1 ∧
      ∀ s idx st m, Event.reportTest s idx st m ∈
          [Event.execCall 0 ['a'] ['x'] 0 true 0 0, Event.reportTest true 0 ['x'] []] →
        ∃ pat, [['a']][(⟨0, ['x'], 1⟩ : TestCase).regex_idx.toNat]? = some pat ∧
          (s = true ↔ ((lib0.regexec pat ['x'] = 0) ↔ (1 : Int) ≠ 0))) ∧
    execLoop lib0 [['a']] ([⟨0, ['x'], 1⟩] ++ [⟨0, ['y'], 0⟩]) =
      some ([Event.execCall 0 ['a'] ['x'] 0 true 0 0, Event.reportTest true 0 ['x'] []] ++
        [Event.execCall 0 ['a'] ['y'] 0 true 0 0, Event.reportTest false 0 ['y'] []]) :=
  ⟨exec_reports_one_line_per_triple.1 lib0 [['a']] ⟨0, ['x'], 1⟩ _ (by decide),
   exec_reports_one_line_per_triple.2 lib0 [['a']] [⟨0, ['x'], 1⟩] [⟨0, ['y'], 0⟩] _ _
     (by decide) (by decide)⟩

/-! ### C3: match errors are folded into the boolean, not surfaced -/

/-- C3 counterexample: `REG_ESPACE` is a genuine `regexec` error — it is
neither 0 (matched) nor `REG_NOMATCH` — yet the harness produces the
same `Success` diagnostic a plain no-match produces when the triple
expects no match: the error is silently treated as the boolean result
false, and the triple even counts as a pass. -/
theorem match_error_counterexample :
    REG_ESPACE ≠ 0 ∧ REG_ESPACE ≠ REG_NOMATCH ∧
    execStep libMatchError [['a']] ⟨0, ['b'], 0⟩ =
      some [Event.execCall 0 ['a'] ['b'] 0 true 0 REG_ESPACE,
            Event.reportTest true 0 ['b'] []] ∧
    execStep libNoMatch [['a']] ⟨0, ['b'], 0⟩ =
      some [Event.execCall 0 ['a'] ['b'] 0 true 0 REG_NOMATCH,
            Event.reportTest true 0 ['b'] []] := by
  refine ⟨by decide, by decide, by decide, by decide⟩

/-- C3 amended: every nonzero `regexec` return code — no-match and
error codes alike — is treated as the boolean result "no match" when
the pass/fail label is computed, so the diagnostic reads `Success`
exactly when the triple expected no match; the only trace of the error
is the `regerror` text embedded in the line. -/
theorem match_error_treated_as_nomatch (lib : Lib) (patterns : List CStr) (t : TestCase)
    (evs : List Event) (h : execStep lib patterns t = some evs)
    (pat : CStr) (hp : patterns[t.regex_idx.toNat]? = some pat)
    (hret : lib.regexec pat t.str ≠ 0) :
    Event.reportTest (t.isMatch == 0) t.regex_idx t.str
      (lib.regerror (lib.regexec pat t.str) pat) ∈ evs := by
  rw [execStep] at h
  split at h
  case isFalse => exact absurd h (by simp)
  case isTrue hb =>
    rw [Option.some_inj] at h
    subst h
    have hpat : patterns.get ⟨t.regex_idx.toNat, hb.2⟩ = pat := by
      rw [List.getElem?_eq_getElem hb.2] at hp
      exact Option.some_inj.mp hp
    rw [hpat]
    have hcond : ((t.isMatch != 0 && lib.regexec pat t.str == 0) ||
        (t.isMatch == 0 && !(lib.regexec pat t.str == 0))) = (t.isMatch == 0) := by
      have : (lib.regexec pat t.str == 0) = false := by
        simpa using hret
      rw [this]
      cases hm : (t.isMatch == 0) <;> simp [hm]
    rw [hcond]
    exact List.mem_cons_of_mem _ (List.mem_singleton.mpr rfl)

theorem match_error_treated_as_nomatch_witness :
    Event.reportTest ((1 : Int) == 0) 0 ['b']
      (libMatchError.regerror (libMatchError.regexec ['a'] ['b']) ['a']) ∈
      [Event.execCall 0 ['a'] ['b'] 0 true 0 REG_ESPACE,
       Event.reportTest false 0 ['b'] []] :=
  match_error_treated_as_nomatch libMatchError [['a']] ⟨0, ['b'], 1⟩ _ (by decide)
    ['a'] (by decide) (by decide)

/-! ### C2: a compile failure aborts the remaining patterns -/

/-- Is this event a `regcomp` call for array slot `i`? -/
def Event.isCompileOf (e : Event) (i : Nat) : Bool :=
  match e with
  | .compileCall j _ _ _ => j == i
  | _ => false

/-- C2 counterexample: with a library that rejects pattern 0 (`"("`) but
would accept pattern 1 (`"a"`), `main`'s compile loop calls `regcomp`
for pattern 0 only, prints a failure line carrying the pattern text (not
its position), and `goto error`s with the loop result `some 0`: pattern
1 is never compiled, even though nothing is wrong with it. -/
theorem compile_failure_counterexample :
    libFailParen.regcomp ['a'] cflags_main = 0 ∧
    compilePatterns libFailParen [['('], ['a']] =
      ([Event.compileCall 0 ['('] cflags_main 2, Event.reportCompileFail ['(']], some 0) ∧
    (∀ e ∈ (compilePatterns libFailParen [['('], ['a']]).1,
      Event.isCompileOf e 1 = false) := by
  refine ⟨by decide, by decide, by decide⟩

/-- C2 amended: when the pattern at position `i` of the sequence fails
to compile (and those before it compile), `main` reports the failure
with the pattern's text — not its position — and aborts: no pattern
after position `i` is compiled, the loop stops with failure index `i`,
and the patterns after `i` are never used. -/
theorem compile_failure_aborts (lib : Lib) (ps qs : List CStr) (p : CStr)
    (hok : ∀ q ∈ ps, lib.regcomp q cflags_main = 0)
    (hfail : lib.regcomp p cflags_main ≠ 0) :
    (compilePatterns lib (ps ++ p :: qs)).2 = some ps.length ∧
    Event.reportCompileFail p ∈ (compilePatterns lib (ps ++ p :: qs)).1 ∧
    ∀ e ∈ (compilePatterns lib (ps ++ p :: qs)).1,
      ∀ i q cf r, e = Event.compileCall i q cf r → i ≤ ps.length := by
  have main : ∀ (ps : List CStr) (i : Nat), (∀ q ∈ ps, lib.regcomp q cflags_main = 0) →
      (compileLoop lib (ps ++ p :: qs) i).2 = some (i + ps.length) ∧
      Event.reportCompileFail p ∈ (compileLoop lib (ps ++ p :: qs) i).1 ∧
      ∀ e ∈ (compileLoop lib (ps ++ p :: qs) i).1,
        ∀ j q cf r, e = Event.compileCall j q cf r → j ≤ i + ps.length := by
    intro ps
    induction ps with
    | nil =>
      intro i _
      have hcond : (lib.regcomp p cflags_main == 0) = false := by
        simpa using hfail
      rw [List.nil_append, compileLoop, hcond]
      refine ⟨by simp, by simp, ?_⟩
      intro e he j q cf r heq
      simp only [Bool.false_eq_true, if_false, List.mem_cons, List.mem_singleton] at he
      rcases he with h1 | h2
      · rw [heq] at h1
        injection h1 with e1 e2 e3 e4
        omega
      · rw [heq] at h2
        exact absurd h2.symm (by simp)
    | cons q ps' ih =>
      intro i hq
      have hq0 : lib.regcomp q cflags_main = 0 := hq q (List.mem_cons_self q ps')
      have hcond : (lib.regcomp q cflags_main == 0) = true := by
        simpa using hq0
      rw [List.cons_append, compileLoop, hcond]
      simp only [if_true]
      obtain ⟨ih1, ih2, ih3⟩ := ih (i + 1) (fun q' hq' => hq q' (List.mem_cons_of_mem _ hq'))
      refine ⟨?_, ?_, ?_⟩
      · rw [ih1]
        simp only [List.length_cons]
        congr 1
        omega
      · exact List.mem_cons_of_mem _ ih2
      · intro e he j q' cf r heq
        rcases List.mem_cons.mp he with h1 | h2
        · rw [heq] at h1
          injection h1 with e1 e2 e3 e4
          simp only [List.length_cons]
          omega
        · have := ih3 e h2 j q' cf r heq
          simp only [List.length_cons]
          omega
  simpa using main ps 0 hok

theorem compile_failure_aborts_witness :
    (compilePatterns libFailParen ([['a']] ++ ['('] :: [['b']])).2 = some [['a']].length ∧
    Event.reportCompileFail ['('] ∈ (compilePatterns libFailParen ([['a']] ++ ['('] :: [['b']])).1 ∧
    ∀ e ∈ (compilePatterns libFailParen ([['a']] ++ ['('] :: [['b']])).1,
      ∀ i q cf r, e = Event.compileCall i q cf r → i ≤ [['a']].length :=
  compile_failure_aborts libFailParen [['a']] [['b']] ['('] (by decide) (by decide)

/-! ### Inversion of `main_run` and trace-wide facts -/

/-- The flags and submatch arguments the C code hard-codes at each call
site. -/
def flagsOK : Event → Prop
  | .compileCall _ _ cf _ => cf = cflags_main
  | .execCall _ _ _ n pm ef _ => n = 0 ∧ pm = true ∧ ef = 0
  | _ => True

theorem compileLoop_flagsOK (lib : Lib) :
    ∀ (ps : List CStr) (i : Nat), ∀ e ∈ (compileLoop lib ps i).1, flagsOK e := by
  intro ps
  induction ps with
  | nil => intro i e he; simp [compileLoop] at he
  | cons p rest ih =>
    intro i e he
    rw [compileLoop] at he
    by_cases hc : (lib.regcomp p cflags_main == 0) = true
    · rw [if_pos hc] at he
      rcases List.mem_cons.mp he with h1 | h2
      · rw [h1]; exact rfl
      · exact ih (i + 1) e h2
    · rw [if_neg hc] at he
      rcases List.mem_cons.mp he with h1 | h2
      · rw [h1]; exact rfl
      · rw [List.mem_singleton.mp h2]; exact trivial

theorem execStep_flagsOK (lib : Lib) (patterns : List CStr) (t : TestCase)
    (evs : List Event) (h : execStep lib patterns t = some evs) :
    ∀ e ∈ evs, flagsOK e := by
  rw [execStep] at h
  split at h
  case isFalse => exact absurd h (by simp)
  case isTrue hb =>
    rw [Option.some_inj] at h
    subst h
    intro e he
    rcases List.mem_cons.mp he with h1 | h2
    · rw [h1]; exact ⟨rfl, rfl, rfl⟩
    · rw [List.mem_singleton.mp h2]; exact trivial

theorem execLoop_flagsOK (lib : Lib) (patterns : List CStr) :
    ∀ (tests : List TestCase) (evs : List Event),
    execLoop lib patterns tests = some evs → ∀ e ∈ evs, flagsOK e := by
  intro tests
  induction tests with
  | nil =>
    intro evs h e he
    rw [execLoop, Option.some_inj] at h
    subst h
    simp at he
  | cons t rest ih =>
    intro evs h e he
    rw [execLoop] at h
    cases hs : execStep lib patterns t with
    | none => rw [hs] at h; exact absurd h (by simp)
    | some evs1 =>
      rw [hs] at h
      cases hr : execLoop lib patterns rest with
      | none => rw [hr] at h; exact absurd h (by simp)
      | some evs2 =>
        rw [hr, Option.some_inj] at h
        subst h
        rcases List.mem_append.mp he with h1 | h2
        · exact execStep_flagsOK lib patterns t evs1 hs e h1
        · exact ih evs2 hr e h2

theorem execLoop_report_count (lib : Lib) (patterns : List CStr) :
    ∀ (tests : List TestCase) (evs : List Event),
    execLoop lib patterns tests = some evs →
    (evs.filter Event.isReport).length = tests.length := by
  intro tests
  induction tests with
  | nil =>
    intro evs h
    rw [execLoop, Option.some_inj] at h
    subst h
    rfl
  | cons t rest ih =>
    intro evs h
    rw [execLoop] at h
    cases hs : execStep lib patterns t with
    | none => rw [hs] at h; exact absurd h (by simp)
    | some evs1 =>
      rw [hs] at h
      cases hr : execLoop lib patterns rest with
      | none => rw [hr] at h; exact absurd h (by simp)
      | some evs2 =>
        rw [hr, Option.some_inj] at h
        subst h
        have h1 : (evs1.filter Event.isReport).length = 1 := by
          rw [execStep] at hs
          split at hs
          case isFalse => exact absurd hs (by simp)
          case isTrue hb =>
            rw [Option.some_inj] at hs
            subst hs
            rfl
        rw [List.filter_append, List.length_append, h1, ih evs2 hr, List.length_cons]
        omega

/-- Case analysis of `main_run`: the four ways `main` can return. -/
theorem main_run_cases (lib : Lib) (fs : Files) (evs : List Event) (ret : Int)
    (h : main_run lib fs = some (evs, ret)) :
    (fs.pattern_txt = none ∧ evs = [Event.fileRead "pattern.txt" false] ∧ ret = 1) ∨
    (∃ pc i, fs.pattern_txt = some pc ∧
      (compilePatterns lib (read_lines_pure pc)).2 = some i ∧
      evs = Event.fileRead "pattern.txt" true ::
        (compilePatterns lib (read_lines_pure pc)).1 ∧ ret = 1) ∨
    (∃ pc, fs.pattern_txt = some pc ∧
      (compilePatterns lib (read_lines_pure pc)).2 = none ∧ fs.test_txt = none ∧
      evs = Event.fileRead "pattern.txt" true ::
        (compilePatterns lib (read_lines_pure pc)).1 ++
          [Event.fileRead "test.txt" false] ∧ ret = 1) ∨
    (∃ pc tc tests eev, fs.pattern_txt = some pc ∧ fs.test_txt = some tc ∧
      (compilePatterns lib (read_lines_pure pc)).2 = none ∧
      parse_test_cases (read_lines_pure tc) = some tests ∧
      execLoop lib (read_lines_pure pc) tests = some eev ∧
      evs = Event.fileRead "pattern.txt" true ::
        (compilePatterns lib (read_lines_pure pc)).1 ++
          Event.fileRead "test.txt" true :: eev ∧ ret = 0) := by
  cases hp : fs.pattern_txt with
  | none =>
    simp only [main_run, hp, Option.some_inj, Prod.mk.injEq] at h
    exact Or.inl ⟨rfl, h.1.symm, h.2.symm⟩
  | some pc =>
    simp only [main_run, hp] at h
    cases hc : (compilePatterns lib (read_lines_pure pc)).2 with
    | some i =>
      simp only [hc, Option.some_inj, Prod.mk.injEq] at h
      exact Or.inr (Or.inl ⟨pc, i, rfl, hc, h.1.symm, h.2.symm⟩)
    | none =>
      simp only [hc] at h
      cases ht : fs.test_txt with
      | none =>
        simp only [ht, Option.some_inj, Prod.mk.injEq] at h
        exact Or.inr (Or.inr (Or.inl ⟨pc, rfl, hc, rfl, h.1.symm, h.2.symm⟩))
      | some tc =>
        simp only [ht] at h
        cases hts : parse_test_cases (read_lines_pure tc) with
        | none =>
          rw [hts] at h
          exact absurd h (by simp)
        | some tests =>
          simp only [hts] at h
          cases hev : execLoop lib (read_lines_pure pc) tests with
          | none =>
            rw [hev] at h
            exact absurd h (by simp)
          | some eev =>
            simp only [hev, Option.some_inj, Prod.mk.injEq] at h
            exact Or.inr (Or.inr (Or.inr ⟨pc, tc, tests, eev, rfl, rfl, hc, hts, hev,
              h.1.symm, h.2.symm⟩))

/-! ### C4: no-submatch mode throughout -/

/-- C4: in every run of `main`, every `regcomp` call passes exactly
`REG_EXTENDED | REG_NOSUB` (so the no-submatch flag is set), and every
`regexec` call asks for zero submatch slots with a NULL `pmatch`: the
only information carried forward per triple is the boolean encoded in
the return code. -/
theorem main_no_submatch_mode (lib : Lib) (fs : Files) (evs : List Event) (ret : Int)
    (h : main_run lib fs = some (evs, ret)) :
    (∀ e ∈ evs, ∀ i p cf r, e = Event.compileCall i p cf r →
      cf = REG_EXTENDED ||| REG_NOSUB ∧ cf.land REG_NOSUB ≠ 0) ∧
    (∀ e ∈ evs, ∀ i p s n pm ef r, e = Event.execCall i p s n pm ef r →
      n = 0 ∧ pm = true) := by
  have hOK : ∀ e ∈ evs, flagsOK e := by
    rcases main_run_cases lib fs evs ret h with
      ⟨_, h1, _⟩ | ⟨pc, i, _, _, h1, _⟩ | ⟨pc, _, _, _, h1, _⟩ |
      ⟨pc, tc, tests, eev, _, _, _, _, hev, h1, _⟩
    · intro e he
      rw [h1] at he
      rw [List.mem_singleton.mp he]
      exact trivial
    · intro e he
      rw [h1] at he
      rcases List.mem_cons.mp he with h2 | h3
      · rw [h2]; exact trivial
      · exact compileLoop_flagsOK lib _ 0 e h3
    · intro e he
      rw [h1] at he
      rcases List.mem_cons.mp he with h2 | h3
      · rw [h2]; exact trivial
      · rcases List.mem_append.mp h3 with h4 | h5
        · exact compileLoop_flagsOK lib _ 0 e h4
        · rw [List.mem_singleton.mp h5]; exact trivial
    · intro e he
      rw [h1] at he
      rcases List.mem_cons.mp he with h2 | h3
      · rw [h2]; exact trivial
      · rcases List.mem_append.mp h3 with h4 | h5
        · exact compileLoop_flagsOK lib _ 0 e h4
        · rcases List.mem_cons.mp h5 with h6 | h7
          · rw [h6]; exact trivial
          · exact execLoop_flagsOK lib _ tests eev hev e h7
  constructor
  · intro e he i p cf r heq
    have := hOK e he
    rw [heq] at this
    refine ⟨this, ?_⟩
    rw [this]
    decide
  · intro e he i p s n pm ef r heq
    have := hOK e he
    rw [heq] at this
    exact ⟨this.1, this.2.1⟩

/-- Concrete run used by witnesses: one pattern `"a"`, one test line
`"0 b 1"`. -/
def fs0 : Files := ⟨some ['a', '\n'], some ['0', ' ', 'b', ' ', '1', '\n']⟩

/-- The trace `main` produces on `fs0` with `lib0`. -/
def trace0 : List Event :=
  [Event.fileRead "pattern.txt" true,
   Event.compileCall 0 ['a'] cflags_main 0,
   Event.fileRead "test.txt" true,
   Event.execCall 0 ['a'] ['b'] 0 true 0 0,
   Event.reportTest true 0 ['b'] []]

theorem main_no_submatch_mode_witness :
    (∀ e ∈ trace0, ∀ i p cf r, e = Event.compileCall i p cf r →
      cf = REG_EXTENDED ||| REG_NOSUB ∧ cf.land REG_NOSUB ≠ 0) ∧
    (∀ e ∈ trace0, ∀ i p s n pm ef r, e = Event.execCall i p s n pm ef r →
      n = 0 ∧ pm = true) :=
  main_no_submatch_mode lib0 fs0 trace0 0 (by decide)

/-! ### C5: the end-to-end pipeline, in order -/

/-- C5: a successful run of `main` reads `pattern.txt`, compiles every
pattern of it (in order, with no compile failure), reads `test.txt`,
parses it into test triples, and then runs the execution loop, emitting
exactly one pass/fail diagnostic per triple; the trace is exactly this
pipeline, and matching itself enters only through the `regexec` oracle
calls recorded in the exec-loop segment. -/
theorem main_pipeline_order (lib : Lib) (pc tc : CStr) (evs : List Event)
    (h : main_run lib ⟨some pc, some tc⟩ = some (evs, 0)) :
    ∃ tests eev,
      (compilePatterns lib (read_lines_pure pc)).2 = none ∧
      parse_test_cases (read_lines_pure tc) = some tests ∧
      execLoop lib (read_lines_pure pc) tests = some eev ∧
      evs = Event.fileRead "pattern.txt" true ::
        (compilePatterns lib (read_lines_pure pc)).1 ++
          Event.fileRead "test.txt" true :: eev ∧
      (eev.filter Event.isReport).length = tests.length := by
  rcases main_run_cases lib ⟨some pc, some tc⟩ evs 0 h with
    ⟨h1, _, _⟩ | ⟨pc', i, _, _, _, h1⟩ | ⟨pc', _, _, h1, _, _⟩ |
    ⟨pc', tc', tests, eev, hpc, htc, hc, hts, hev, h1, _⟩
  · exact absurd h1 (by simp)
  · exact absurd h1 (by norm_num)
  · exact absurd h1 (by simp)
  · have hpc' : pc' = pc := by
      have := hpc.symm
      injection this
    have htc' : tc' = tc := by
      have := htc.symm
      injection this
    subst hpc'
    subst htc'
    exact ⟨tests, eev, hc, hts, hev, h1,
      execLoop_report_count lib _ tests eev hev⟩

theorem main_pipeline_order_witness :
    ∃ tests eev,
      (compilePatterns lib0 (read_lines_pure ['a', '\n'])).2 = none ∧
      parse_test_cases (read_lines_pure ['0', ' ', 'b', ' ', '1', '\n']) = some tests ∧
      execLoop lib0 (read_lines_pure ['a', '\n']) tests = some eev ∧
      trace0 = Event.fileRead "pattern.txt" true ::
        (compilePatterns lib0 (read_lines_pure ['a', '\n'])).1 ++
          Event.fileRead "test.txt" true :: eev ∧
      (eev.filter Event.isReport).length = tests.length :=
  main_pipeline_order lib0 ['a', '\n'] ['0', ' ', 'b', ' ', '1', '\n'] trace0 (by decide)

/-! ### C7: in-bounds pattern access in the execution loop -/

theorem getD_of_lt (l : List CStr) (n : Nat) (h : n < l.length) :
    l.getD n [] = l.get ⟨n, h⟩ := by
  rw [List.getD_eq_getElem?_getD, List.getElem?_eq_getElem h]
  rfl

/-- C7: when every parsed triple's `regex_idx` is in
`[0, number of patterns)`, the execution loop never indexes outside the
compiled-pattern array (it completes without undefined behaviour), every
triple gets a `regexec` call against exactly the pattern stored at its
own `regex_idx`, and every `regexec` call in the trace uses an index
below the array length and the pattern stored there. -/
theorem exec_loop_in_bounds (lib : Lib) (patterns : List CStr) (tests : List TestCase)
    (h : ∀ t ∈ tests, 0 ≤ t.regex_idx ∧ t.regex_idx.toNat < patterns.length) :
    ∃ evs, execLoop lib patterns tests = some evs ∧
      (∀ t ∈ tests, Event.execCall t.regex_idx.toNat (patterns.getD t.regex_idx.toNat [])
        t.str 0 true 0 (lib.regexec (patterns.getD t.regex_idx.toNat []) t.str) ∈ evs) ∧
      (∀ e ∈ evs, ∀ i p s n pm ef r, e = Event.execCall i p s n pm ef r →
        i < patterns.length ∧ p = patterns.getD i []) := by
  induction tests with
  | nil => exact ⟨[], rfl, by simp, by simp⟩
  | cons t rest ih =>
    obtain ⟨evs', hev', hmem', hbound'⟩ := ih (fun t' ht' => h t' (List.mem_cons_of_mem _ ht'))
    have hb := h t (List.mem_cons_self t rest)
    have hget : patterns.getD t.regex_idx.toNat [] = patterns.get ⟨t.regex_idx.toNat, hb.2⟩ :=
      getD_of_lt patterns t.regex_idx.toNat hb.2
    have hstep : execStep lib patterns t = some
        [Event.execCall t.regex_idx.toNat (patterns.getD t.regex_idx.toNat []) t.str 0 true 0
           (lib.regexec (patterns.getD t.regex_idx.toNat []) t.str),
         Event.reportTest
           ((t.isMatch != 0 && lib.regexec (patterns.getD t.regex_idx.toNat []) t.str == 0) ||
             (t.isMatch == 0 && !(lib.regexec (patterns.getD t.regex_idx.toNat []) t.str == 0)))
           t.regex_idx t.str
           (lib.regerror (lib.regexec (patterns.getD t.regex_idx.toNat []) t.str)
             (patterns.getD t.regex_idx.toNat []))] := by
      rw [execStep, dif_pos hb, hget]
    refine ⟨[Event.execCall t.regex_idx.toNat (patterns.getD t.regex_idx.toNat []) t.str 0 true 0
        (lib.regexec (patterns.getD t.regex_idx.toNat []) t.str),
      Event.reportTest
        ((t.isMatch != 0 && lib.regexec (patterns.getD t.regex_idx.toNat []) t.str == 0) ||
          (t.isMatch == 0 && !(lib.regexec (patterns.getD t.regex_idx.toNat []) t.str == 0)))
        t.regex_idx t.str
        (lib.regerror (lib.regexec (patterns.getD t.regex_idx.toNat []) t.str)
          (patterns.getD t.regex_idx.toNat []))] ++ evs', ?_, ?_, ?_⟩
    · rw [execLoop, hstep, hev']
    · intro t' ht'
      rcases List.mem_cons.mp ht' with h1 | h2
      · subst h1
        exact List.mem_append_left _ (List.mem_cons_self _ _)
      · exact List.mem_append_right _ (hmem' t' h2)
    · intro e he i p s n pm ef r heq
      rcases List.mem_append.mp he with h1 | h2
      · rcases List.mem_cons.mp h1 with h3 | h4
        · rw [heq] at h3
          injection h3 with e1 e2 e3 e4 e5 e6 e7
          subst e1
          subst e2
          exact ⟨hb.2, rfl⟩
        · rw [List.mem_singleton.mp h4] at heq
          exact absurd heq (by simp)
      · exact hbound' e h2 i p s n pm ef r heq

theorem exec_loop_in_bounds_witness :
    ∃ evs, execLoop lib0 [['a'], ['b']] [⟨1, ['x'], 1⟩, ⟨0, ['y'], 0⟩] = some evs ∧
      (∀ t ∈ [(⟨1, ['x'], 1⟩ : TestCase), ⟨0, ['y'], 0⟩],
        Event.execCall t.regex_idx.toNat ([['a'], ['b']].getD t.regex_idx.toNat [])
          t.str 0 true 0 (lib0.regexec ([['a'], ['b']].getD t.regex_idx.toNat []) t.str) ∈ evs) ∧
      (∀ e ∈ evs, ∀ i p s n pm ef r, e = Event.execCall i p s n pm ef r →
        i < [['a'], ['b']].length ∧ p = [['a'], ['b']].getD i []) :=
  exec_loop_in_bounds lib0 [['a'], ['b']] [⟨1, ['x'], 1⟩, ⟨0, ['y'], 0⟩] (by decide)

/-! ### C8: the execution loop does not mutate patterns or tests -/

theorem execLoopStFrom_spec (lib : Lib) :
    ∀ (n i : Nat) (s s' : ExecState), execLoopStFrom lib n i s = some s' →
    s'.regexs = s.regexs ∧ s'.tests = s.tests ∧
    ∃ evs, execLoop lib s.regexs ((s.tests.drop i).take n) = some evs ∧
      s'.output = s.output ++ evs := by
  intro n
  induction n with
  | zero =>
    intro i s s' h
    rw [execLoopStFrom, Option.some_inj] at h
    subst h
    exact ⟨rfl, rfl, [], rfl, by simp⟩
  | succ n ih =>
    intro i s s' h
    rw [execLoopStFrom] at h
    cases hb : execBodySt lib s i with
    | none =>
      simp only [hb] at h
      exact absurd h (by simp)
    | some s1 =>
      simp only [hb] at h
      rw [execBodySt] at hb
      cases ht : s.tests[i]? with
      | none =>
        simp only [ht] at hb
        exact absurd hb (by simp)
      | some t =>
        simp only [ht] at hb
        cases hes : execStep lib s.regexs t with
        | none =>
          simp only [hes] at hb
          exact absurd hb (by simp)
        | some evs1 =>
          simp only [hes, Option.some_inj] at hb
          obtain ⟨ihr, iht, evs2, ihev, ihout⟩ := ih (i + 1) s1 s' h
          have hs1r : s1.regexs = s.regexs := by rw [← hb]
          have hs1t : s1.tests = s.tests := by rw [← hb]
          have hs1o : s1.output = s.output ++ evs1 := by rw [← hb]
          obtain ⟨hlt, hgetel⟩ := List.getElem?_eq_some.mp ht
          have hdrop : s.tests.drop i = t :: s.tests.drop (i + 1) := by
            rw [List.drop_eq_getElem_cons hlt, hgetel]
          refine ⟨ihr.trans hs1r, iht.trans hs1t, evs1 ++ evs2, ?_, ?_⟩
          · rw [hdrop, List.take_succ_cons, execLoop, hes]
            rw [hs1r, hs1t] at ihev
            rw [ihev]
          · rw [ihout, hs1o, List.append_assoc]

/-- C8: running the execution loop leaves the compiled-pattern array
and the test cases (including their subject strings) exactly as they
were; the loop only appends diagnostic events to the output, and those
events are computed from the original, unchanged pattern array — so a
pattern compiled once is reused across triples, and triples sharing a
`regex_idx` read the identical pattern value. -/
theorem exec_loop_frame (lib : Lib) (s s' : ExecState) (h : execLoopSt lib s = some s') :
    s'.regexs = s.regexs ∧ s'.tests = s.tests ∧
    ∃ evs, execLoop lib s.regexs s.tests = some evs ∧ s'.output = s.output ++ evs := by
  have := execLoopStFrom_spec lib s.tests.length 0 s s' h
  rw [List.drop_zero] at this
  rwa [List.take_length] at this

theorem exec_loop_frame_witness :
    (ExecState.regexs ⟨[['a']], [⟨0, ['x'], 1⟩, ⟨0, ['y'], 0⟩],
        [Event.execCall 0 ['a'] ['x'] 0 true 0 0, Event.reportTest true 0 ['x'] [],
         Event.execCall 0 ['a'] ['y'] 0 true 0 0, Event.reportTest false 0 ['y'] []]⟩ =
      ExecState.regexs ⟨[['a']], [⟨0, ['x'], 1⟩, ⟨0, ['y'], 0⟩], []⟩) ∧
    (ExecState.tests ⟨[['a']], [⟨0, ['x'], 1⟩, ⟨0, ['y'], 0⟩],
        [Event.execCall 0 ['a'] ['x'] 0 true 0 0, Event.reportTest true 0 ['x'] [],
         Event.execCall 0 ['a'] ['y'] 0 true 0 0, Event.reportTest false 0 ['y'] []]⟩ =
      ExecState.tests ⟨[['a']], [⟨0, ['x'], 1⟩, ⟨0, ['y'], 0⟩], []⟩) ∧
    ∃ evs, execLoop lib0 (ExecState.regexs ⟨[['a']], [⟨0, ['x'], 1⟩, ⟨0, ['y'], 0⟩], []⟩)
        (ExecState.tests ⟨[['a']], [⟨0, ['x'], 1⟩, ⟨0, ['y'], 0⟩], []⟩) = some evs ∧
      ExecState.output ⟨[['a']], [⟨0, ['x'], 1⟩, ⟨0, ['y'], 0⟩],
        [Event.execCall 0 ['a'] ['x'] 0 true 0 0, Event.reportTest true 0 ['x'] [],
         Event.execCall 0 ['a'] ['y'] 0 true 0 0, Event.reportTest false 0 ['y'] []]⟩ =
        ExecState.output ⟨[['a']], [⟨0, ['x'], 1⟩, ⟨0, ['y'], 0⟩], []⟩ ++ evs :=
  exec_loop_frame lib0 ⟨[['a']], [⟨0, ['x'], 1⟩, ⟨0, ['y'], 0⟩], []⟩
    ⟨[['a']], [⟨0, ['x'], 1⟩, ⟨0, ['y'], 0⟩],
      [Event.execCall 0 ['a'] ['x'] 0 true 0 0, Event.reportTest true 0 ['x'] [],
       Event.execCall 0 ['a'] ['y'] 0 true 0 0, Event.reportTest false 0 ['y'] []]⟩
    (by decide)

end CRegex
